import Mathlib

/-!
Verification of the Black-Scholes pricing module (`src/general.py`).

The module consists of three functions over real scalars:
`black_scholes_call`, `black_scholes_put` and `calculate_greeks`.
We embed them shallowly over `ℝ`:

* `numpy`'s `log`, `exp`, `sqrt` become `Real.log`, `Real.exp`, `Real.sqrt`;
* `scipy.stats.norm.pdf` / `norm.cdf` are the standard normal density and
  cumulative distribution function, embedded as `normPdf` / `normCdf`
  (the cdf is the Lebesgue integral of the density over `Set.Iic x`);
* the call `norm.edf(d1)` in `calculate_greeks` refers to an attribute that
  does not exist on `scipy.stats.norm`; at run time Python raises
  `AttributeError`.  We model this by letting the greeks computation return
  `Except PyErr`, with `norm_edf` always returning the error.
-/

open Real MeasureTheory Set

noncomputable section

/-- Standard normal probability density function (`scipy.stats.norm.pdf`). -/
def normPdf (x : ℝ) : ℝ := (Real.sqrt (2 * π))⁻¹ * Real.exp (-(x ^ 2) / 2)

/-- Standard normal cumulative distribution function (`scipy.stats.norm.cdf`). -/
def normCdf (x : ℝ) : ℝ := ∫ t in Iic x, normPdf t

/-- The local `d1` of `black_scholes_call` (src/general.py line 35). -/
def call_d1 (S K T r sigma : ℝ) : ℝ :=
  (Real.log (S / K) + (r + 0.5 * sigma ^ 2) * T) / (sigma * Real.sqrt T)

/-- The local `d2` of `black_scholes_call` (src/general.py line 36). -/
def call_d2 (S K T r sigma : ℝ) : ℝ :=
  call_d1 S K T r sigma - sigma * Real.sqrt T

/-- The local `d1` of `black_scholes_put` (src/general.py line 71). -/
def put_d1 (S K T r sigma : ℝ) : ℝ :=
  (Real.log (S / K) + (r + 0.5 * sigma ^ 2) * T) / (sigma * Real.sqrt T)

/-- The local `d2` of `black_scholes_put` (src/general.py line 72). -/
def put_d2 (S K T r sigma : ℝ) : ℝ :=
  put_d1 S K T r sigma - sigma * Real.sqrt T

/-- The local `d1` of `calculate_greeks` (src/general.py line 108). -/
def greeks_d1 (S K T r sigma : ℝ) : ℝ :=
  (Real.log (S / K) + (r + 0.5 * sigma ^ 2) * T) / (sigma * Real.sqrt T)

/-- The local `d2` of `calculate_greeks` (src/general.py line 109). -/
def greeks_d2 (S K T r sigma : ℝ) : ℝ :=
  greeks_d1 S K T r sigma - sigma * Real.sqrt T

/-- `black_scholes_call` (src/general.py lines 8-41): the Black-Scholes price
of a European call option. -/
def black_scholes_call (S K T r sigma : ℝ) : ℝ :=
  S * normCdf (call_d1 S K T r sigma)
    - K * Real.exp (-r * T) * normCdf (call_d2 S K T r sigma)

/-- `black_scholes_put` (src/general.py lines 43-77): the Black-Scholes price
of a European put option. -/
def black_scholes_put (S K T r sigma : ℝ) : ℝ :=
  K * Real.exp (-r * T) * normCdf (-put_d2 S K T r sigma)
    - S * normCdf (-put_d1 S K T r sigma)

/-- Python run-time errors raised by the module.  The only error the code can
raise is the `AttributeError` caused by the nonexistent `norm.edf` attribute;
the code defines no `InvalidInput` error and performs no input validation. -/
inductive PyErr where
  | attributeError (msg : String)

/-- The attribute access `norm.edf` (src/general.py lines 113 and 115):
`scipy.stats.norm` has no attribute `edf`, so evaluating it raises
`AttributeError` regardless of the argument. -/
def norm_edf (_ : ℝ) : Except PyErr ℝ :=
  .error (.attributeError "edf")

/-- The delta block of `calculate_greeks` (src/general.py lines 111-115). -/
def greeks_delta (S K T r sigma : ℝ) (option_type : String) : Except PyErr ℝ :=
  let d1 := greeks_d1 S K T r sigma
  if option_type = "call" then norm_edf d1
  else (norm_edf d1).map (fun x => x - 1)

/-- The theta block of `calculate_greeks` (src/general.py lines 123-129). -/
def greeks_theta (S K T r sigma : ℝ) (option_type : String) : ℝ :=
  let d1 := greeks_d1 S K T r sigma
  let d2 := greeks_d2 S K T r sigma
  let first_term := -(S * normPdf d1 * sigma) / (2 * Real.sqrt T)
  let second_term :=
    if option_type = "call" then -r * K * Real.exp (-r * T) * normCdf d2
    else r * K * Real.exp (-r * T) * normCdf (-d2)
  first_term + second_term

/-- The rho block of `calculate_greeks` (src/general.py lines 131-135).  Note
that BOTH branches apply `norm.cdf` to `d2`; the put branch merely negates the
sign and does not use `norm.cdf(-d2)`. -/
def greeks_rho (S K T r sigma : ℝ) (option_type : String) : ℝ :=
  let d2 := greeks_d2 S K T r sigma
  if option_type = "call" then K * T * Real.exp (-r * T) * normCdf d2
  else -K * T * Real.exp (-r * T) * normCdf d2

/-- The dictionary returned by `calculate_greeks` (src/general.py lines
137-144). -/
structure Greeks where
  delta : ℝ
  gamma : ℝ
  vega : ℝ
  theta : ℝ
  theta_per_day : ℝ
  rho : ℝ

/-- `calculate_greeks` (src/general.py lines 79-144).  The `option_type`
parameter defaults to `"call"` (line 79).  The delta computation evaluates
`norm.edf(d1)`, which raises `AttributeError`, so the function never reaches
the `return` statement; the remaining blocks are embedded faithfully all the
same. -/
def calculate_greeks (S K T r sigma : ℝ) (option_type : String := "call") :
    Except PyErr Greeks := do
  let delta ← greeks_delta S K T r sigma option_type
  let d1 := greeks_d1 S K T r sigma
  let gamma := normPdf d1 / (S * sigma * Real.sqrt T)
  let vega := S * normPdf d1 * Real.sqrt T
  let theta := greeks_theta S K T r sigma option_type
  pure { delta := delta, gamma := gamma, vega := vega, theta := theta,
         theta_per_day := theta / 365,
         rho := greeks_rho S K T r sigma option_type }

end

/-- Rewriting of the density with the exponent in the `-b * x ^ 2` shape of
`integral_gaussian`. -/
theorem normPdf_eq (x : ℝ) :
    normPdf x = (Real.sqrt (2 * π))⁻¹ * Real.exp (-(1/2 : ℝ) * x ^ 2) := by
  simp only [normPdf]
  rw [show -(x ^ 2) / 2 = -(1/2 : ℝ) * x ^ 2 by ring]

/-- The standard normal density is everywhere positive. -/
theorem normPdf_pos (x : ℝ) : 0 < normPdf x := by
  simp only [normPdf]
  have h1 : 0 < Real.sqrt (2 * π) := Real.sqrt_pos.mpr (by positivity)
  positivity

/-- The standard normal density is an even function. -/
theorem normPdf_neg (x : ℝ) : normPdf (-x) = normPdf x := by
  simp only [normPdf, neg_sq]

/-- The standard normal density is integrable on `ℝ`. -/
theorem integrable_normPdf : Integrable normPdf := by
  have h : Integrable (fun x : ℝ => Real.exp (-(1/2 : ℝ) * x ^ 2)) :=
    integrable_exp_neg_mul_sq (by norm_num)
  exact (h.const_mul (Real.sqrt (2 * π))⁻¹).congr
    (Filter.Eventually.of_forall fun x => (normPdf_eq x).symm)

/-- The standard normal density integrates to `1` over `ℝ`. -/
theorem integral_normPdf : (∫ x, normPdf x) = 1 := by
  calc (∫ x, normPdf x)
      = ∫ x, (Real.sqrt (2 * π))⁻¹ * Real.exp (-(1/2 : ℝ) * x ^ 2) :=
        integral_congr_ae (Filter.Eventually.of_forall fun x => normPdf_eq x)
    _ = (Real.sqrt (2 * π))⁻¹ * ∫ x, Real.exp (-(1/2 : ℝ) * x ^ 2) :=
        integral_mul_left _ _
    _ = (Real.sqrt (2 * π))⁻¹ * Real.sqrt (π / (1/2 : ℝ)) := by
        rw [integral_gaussian]
    _ = 1 := by
        rw [show π / (1/2 : ℝ) = 2 * π by ring]
        exact inv_mul_cancel₀ (ne_of_gt (Real.sqrt_pos.mpr (by positivity)))

/-- A translate of the standard normal density is integrable. -/
theorem integrable_normPdf_shift (c : ℝ) :
    Integrable (fun u : ℝ => normPdf (u + c)) := by
  have hemb : MeasurableEmbedding fun x : ℝ => x + c :=
    (Homeomorph.addRight c).isClosedEmbedding.measurableEmbedding
  have h : Integrable (normPdf ∘ fun u : ℝ => u + c) volume ↔
      Integrable normPdf volume :=
    (measurePreserving_add_right (volume : Measure ℝ) c).integrable_comp_emb hemb
  exact h.mpr integrable_normPdf

/-- The normal cdf is nonnegative. -/
theorem normCdf_nonneg (x : ℝ) : 0 ≤ normCdf x :=
  setIntegral_nonneg measurableSet_Iic fun t _ => (normPdf_pos t).le

/-- The normal cdf is at most one. -/
theorem normCdf_le_one (x : ℝ) : normCdf x ≤ 1 := by
  rw [← integral_normPdf]
  exact setIntegral_le_integral integrable_normPdf
    (Filter.Eventually.of_forall fun t => (normPdf_pos t).le)

/-- The right tail of the normal density is the cdf at the negated point. -/
theorem integral_Ioi_normPdf (a : ℝ) :
    (∫ x in Ioi a, normPdf x) = normCdf (-a) := by
  have h := integral_comp_neg_Iic (-a) normPdf
  rw [neg_neg] at h
  rw [← h]
  simp only [normCdf]
  exact setIntegral_congr_fun measurableSet_Iic fun x _ => normPdf_neg x

/-- Reflection identity for the normal cdf: `Φ(x) + Φ(-x) = 1`. -/
theorem normCdf_add_neg (x : ℝ) : normCdf x + normCdf (-x) = 1 := by
  rw [← integral_Ioi_normPdf x]
  simp only [normCdf]
  rw [← setIntegral_union (Iic_disjoint_Ioi le_rfl) measurableSet_Ioi
      integrable_normPdf.integrableOn integrable_normPdf.integrableOn,
    Iic_union_Ioi, Measure.restrict_univ, integral_normPdf]

/-- The normal cdf is strictly increasing. -/
theorem normCdf_lt_of_lt {a b : ℝ} (hab : a < b) : normCdf a < normCdf b := by
  have hsplit : normCdf a + ∫ t in Ioc a b, normPdf t = normCdf b := by
    simp only [normCdf]
    rw [← setIntegral_union (Iic_disjoint_Ioc le_rfl) measurableSet_Ioc
        integrable_normPdf.integrableOn integrable_normPdf.integrableOn,
      Iic_union_Ioc_eq_Iic hab.le]
  have hpos : 0 < ∫ t in Ioc a b, normPdf t := by
    rw [setIntegral_pos_iff_support_of_nonneg_ae
        (Filter.Eventually.of_forall fun t => (normPdf_pos t).le)
        integrable_normPdf.integrableOn]
    have hsupp : Function.support normPdf = univ :=
      Set.eq_univ_of_forall fun t => Function.mem_support.mpr (normPdf_pos t).ne'
    rw [hsupp, Set.univ_inter, Real.volume_Ioc]
    exact ENNReal.ofReal_pos.mpr (by linarith)
  linarith

/-- Translation identity for the normal cdf. -/
theorem normCdf_shift (a c : ℝ) :
    normCdf a = ∫ u in Iic (a - c), normPdf (u + c) := by
  have hemb : MeasurableEmbedding fun x : ℝ => x + c :=
    (Homeomorph.addRight c).isClosedEmbedding.measurableEmbedding
  have h := (measurePreserving_add_right (volume : Measure ℝ) c).setIntegral_image_emb
    hemb normPdf (Iic (a - c))
  rw [image_add_const_Iic, sub_add_cancel] at h
  simp only [normCdf]
  simpa using h

/-- Ratio identity between a shifted and an unshifted normal density.  The
hypothesis `key` is the defining property of the Black-Scholes `d2`. -/
theorem pdf_shift (S B s u dd : ℝ) (hS : 0 < S) (hB : 0 < B)
    (key : dd * s = Real.log S - Real.log B - s ^ 2 / 2) :
    S * normPdf (u + s) = B * normPdf u * Real.exp ((dd - u) * s) := by
  have main : S * Real.exp (-((u + s) ^ 2) / 2) =
      B * (Real.exp (-(u ^ 2) / 2) * Real.exp ((dd - u) * s)) := by
    rw [← Real.exp_log hS, ← Real.exp_log hB, ← Real.exp_add, ← Real.exp_add,
      ← Real.exp_add]
    congr 1
    linear_combination -key
  simp only [normPdf]
  linear_combination (Real.sqrt (2 * π))⁻¹ * main

/-- Difference of weighted normal cdf values as a single set integral. -/
theorem cdf_pair_integral (S B s dd : ℝ) :
    S * normCdf (dd + s) - B * normCdf dd
      = ∫ u in Iic dd, (S * normPdf (u + s) - B * normPdf u) := by
  have h1 : normCdf (dd + s) = ∫ u in Iic dd, normPdf (u + s) := by
    have h := normCdf_shift (dd + s) s
    rwa [add_sub_cancel_right] at h
  have hi1 : IntegrableOn (fun u : ℝ => S * normPdf (u + s)) (Iic dd) volume :=
    ((integrable_normPdf_shift s).const_mul S).integrableOn
  have hi2 : IntegrableOn (fun u : ℝ => B * normPdf u) (Iic dd) volume :=
    (integrable_normPdf.const_mul B).integrableOn
  rw [integral_sub hi1 hi2, integral_mul_left, integral_mul_left, h1]
  rfl

/-- Core inequality behind the lower no-arbitrage bound of the call price:
`S·Φ(dd + s) ≥ B·Φ(dd)` whenever `dd` satisfies the `d2` relation. -/
theorem pair_nonneg (S B s dd : ℝ) (hS : 0 < S) (hB : 0 < B) (hs : 0 ≤ s)
    (key : dd * s = Real.log S - Real.log B - s ^ 2 / 2) :
    0 ≤ S * normCdf (dd + s) - B * normCdf dd := by
  rw [cdf_pair_integral]
  refine setIntegral_nonneg measurableSet_Iic fun u hu => ?_
  rw [sub_nonneg, pdf_shift S B s u dd hS hB key]
  have h1 : (1 : ℝ) ≤ Real.exp ((dd - u) * s) :=
    Real.one_le_exp (mul_nonneg (sub_nonneg.2 (mem_Iic.mp hu)) hs)
  nlinarith [mul_nonneg (mul_nonneg hB.le (normPdf_pos u).le) (sub_nonneg.2 h1)]

/-- Mirror of `pair_nonneg` for a nonpositive shift, used for the put price. -/
theorem pair_nonneg_rev (S B s dd : ℝ) (hS : 0 < S) (hB : 0 < B) (hs : s ≤ 0)
    (key : dd * s = Real.log S - Real.log B - s ^ 2 / 2) :
    0 ≤ B * normCdf dd - S * normCdf (dd + s) := by
  have h2 : B * normCdf dd - S * normCdf (dd + s)
      = ∫ u in Iic dd, (B * normPdf u - S * normPdf (u + s)) := by
    calc B * normCdf dd - S * normCdf (dd + s)
        = -(S * normCdf (dd + s) - B * normCdf dd) := by ring
      _ = -∫ u in Iic dd, (S * normPdf (u + s) - B * normPdf u) := by
          rw [cdf_pair_integral]
      _ = ∫ u in Iic dd, -(S * normPdf (u + s) - B * normPdf u) :=
          (integral_neg _).symm
      _ = ∫ u in Iic dd, (B * normPdf u - S * normPdf (u + s)) := by
          simp only [neg_sub]
  rw [h2]
  refine setIntegral_nonneg measurableSet_Iic fun u hu => ?_
  rw [sub_nonneg, pdf_shift S B s u dd hS hB key]
  have h1 : Real.exp ((dd - u) * s) ≤ 1 := by
    rw [Real.exp_le_one_iff]
    exact mul_nonpos_of_nonneg_of_nonpos (sub_nonneg.2 (mem_Iic.mp hu)) hs
  nlinarith [mul_nonneg (mul_nonneg hB.le (normPdf_pos u).le) (sub_nonneg.2 h1)]

/-- The defining relation of `d2`: `d2·s = ln S − ln(K·e^(−rT)) − s²/2` with
`s = sigma·√T`. -/
theorem call_d2_key (S K T r sigma : ℝ) (hS : 0 < S) (hK : 0 < K) (hT : 0 < T)
    (hsigma : 0 < sigma) :
    call_d2 S K T r sigma * (sigma * Real.sqrt T) =
      Real.log S - Real.log (K * Real.exp (-r * T))
        - (sigma * Real.sqrt T) ^ 2 / 2 := by
  have hs : sigma * Real.sqrt T ≠ 0 := by positivity
  have hsq : (sigma * Real.sqrt T) ^ 2 = sigma ^ 2 * T := by
    rw [mul_pow, Real.sq_sqrt hT.le]
  have hlog : Real.log (S / K) = Real.log S - Real.log K :=
    Real.log_div hS.ne' hK.ne'
  have hlogB : Real.log (K * Real.exp (-r * T)) = Real.log K + -r * T := by
    rw [Real.log_mul hK.ne' (Real.exp_ne_zero _), Real.log_exp]
  simp only [call_d2, call_d1]
  rw [hlog, hlogB, sub_mul, div_mul_cancel₀ _ hs]
  linear_combination (-1/2 : ℝ) * hsq

/-- The Black-Scholes call price is nonnegative. -/
theorem black_scholes_call_nonneg (S K T r sigma : ℝ) (hS : 0 < S) (hK : 0 < K)
    (hT : 0 < T) (hsigma : 0 < sigma) :
    0 ≤ black_scholes_call S K T r sigma := by
  have hB : 0 < K * Real.exp (-r * T) := by positivity
  have hs : (0 : ℝ) ≤ sigma * Real.sqrt T := by positivity
  have key := call_d2_key S K T r sigma hS hK hT hsigma
  have h := pair_nonneg S (K * Real.exp (-r * T)) (sigma * Real.sqrt T)
    (call_d2 S K T r sigma) hS hB hs key
  have hd1 : call_d1 S K T r sigma = call_d2 S K T r sigma + sigma * Real.sqrt T := by
    simp only [call_d2]; ring
  simpa only [black_scholes_call, hd1] using h

/-- The Black-Scholes put price is nonnegative. -/
theorem black_scholes_put_nonneg (S K T r sigma : ℝ) (hS : 0 < S) (hK : 0 < K)
    (hT : 0 < T) (hsigma : 0 < sigma) :
    0 ≤ black_scholes_put S K T r sigma := by
  have hB : 0 < K * Real.exp (-r * T) := by positivity
  have hs : -(sigma * Real.sqrt T) ≤ 0 := neg_nonpos.mpr (by positivity)
  have key2 : -call_d2 S K T r sigma * -(sigma * Real.sqrt T)
      = Real.log S - Real.log (K * Real.exp (-r * T))
        - (-(sigma * Real.sqrt T)) ^ 2 / 2 := by
    linear_combination call_d2_key S K T r sigma hS hK hT hsigma
  have h := pair_nonneg_rev S (K * Real.exp (-r * T)) (-(sigma * Real.sqrt T))
    (-call_d2 S K T r sigma) hS hB hs key2
  have hput1 : -put_d1 S K T r sigma
      = -call_d2 S K T r sigma + -(sigma * Real.sqrt T) := by
    simp only [put_d1, call_d2, call_d1]; ring
  have hput2 : -put_d2 S K T r sigma = -call_d2 S K T r sigma := rfl
  simp only [black_scholes_put]
  rw [hput2, hput1]
  exact h

/-- Put-call parity of the two pricing functions, valid for all real inputs. -/
theorem parity_core (S K T r sigma : ℝ) :
    black_scholes_call S K T r sigma - black_scholes_put S K T r sigma
      = S - K * Real.exp (-r * T) := by
  simp only [black_scholes_call, black_scholes_put]
  have e1 : put_d1 S K T r sigma = call_d1 S K T r sigma := rfl
  have e2 : put_d2 S K T r sigma = call_d2 S K T r sigma := rfl
  rw [e1, e2]
  linear_combination S * normCdf_add_neg (call_d1 S K T r sigma)
    - (K * Real.exp (-r * T)) * normCdf_add_neg (call_d2 S K T r sigma)

/-- C1: for every input with `S > 0`, `K > 0`, `T > 0`, `sigma > 0`,
`black_scholes_call` returns `S·Φ(d1) − K·e^(−rT)·Φ(d2)` with
`d1 = (ln(S/K) + (r + 0.5·sigma²)·T)/(sigma·√T)` and `d2 = d1 − sigma·√T`. -/
theorem call_price_formula (S K T r sigma : ℝ)
    (hS : 0 < S) (hK : 0 < K) (hT : 0 < T) (hsigma : 0 < sigma) :
    black_scholes_call S K T r sigma =
      S * normCdf ((Real.log (S / K) + (r + 0.5 * sigma ^ 2) * T)
          / (sigma * Real.sqrt T))
        - K * Real.exp (-r * T) *
          normCdf ((Real.log (S / K) + (r + 0.5 * sigma ^ 2) * T)
              / (sigma * Real.sqrt T) - sigma * Real.sqrt T) := rfl

/-- Witness for C1 at `(S,K,T,r,sigma) = (2,1,1,0,1)`. -/
theorem call_price_formula_witness :
    (0:ℝ) < 2 ∧ (0:ℝ) < 1 ∧
      black_scholes_call 2 1 1 0 1 =
        2 * normCdf ((Real.log ((2:ℝ) / 1) + ((0:ℝ) + 0.5 * 1 ^ 2) * 1)
            / (1 * Real.sqrt 1))
          - 1 * Real.exp (-(0:ℝ) * 1) *
            normCdf ((Real.log ((2:ℝ) / 1) + ((0:ℝ) + 0.5 * 1 ^ 2) * 1)
                / (1 * Real.sqrt 1) - 1 * Real.sqrt 1) :=
  ⟨by norm_num, by norm_num,
    call_price_formula 2 1 1 0 1 (by norm_num) (by norm_num) (by norm_num)
      (by norm_num)⟩

/-- C2: for every input with `S > 0`, `K > 0`, `T > 0`, `sigma > 0`,
`black_scholes_put` returns `K·e^(−rT)·Φ(−d2) − S·Φ(−d1)` with the same
`d1`, `d2` formulas as the call price. -/
theorem put_price_formula (S K T r sigma : ℝ)
    (hS : 0 < S) (hK : 0 < K) (hT : 0 < T) (hsigma : 0 < sigma) :
    black_scholes_put S K T r sigma =
      K * Real.exp (-r * T) *
          normCdf (-((Real.log (S / K) + (r + 0.5 * sigma ^ 2) * T)
              / (sigma * Real.sqrt T) - sigma * Real.sqrt T))
        - S * normCdf (-((Real.log (S / K) + (r + 0.5 * sigma ^ 2) * T)
            / (sigma * Real.sqrt T))) := rfl

/-- Witness for C2 at `(S,K,T,r,sigma) = (3,2,1,0,1)`. -/
theorem put_price_formula_witness :
    (0:ℝ) < 3 ∧ (0:ℝ) < 2 ∧
      black_scholes_put 3 2 1 0 1 =
        2 * Real.exp (-(0:ℝ) * 1) *
            normCdf (-((Real.log ((3:ℝ) / 2) + ((0:ℝ) + 0.5 * 1 ^ 2) * 1)
                / (1 * Real.sqrt 1) - 1 * Real.sqrt 1))
          - 3 * normCdf (-((Real.log ((3:ℝ) / 2) + ((0:ℝ) + 0.5 * 1 ^ 2) * 1)
              / (1 * Real.sqrt 1))) :=
  ⟨by norm_num, by norm_num,
    put_price_formula 3 2 1 0 1 (by norm_num) (by norm_num) (by norm_num)
      (by norm_num)⟩

/-- C9: the three textual occurrences of the `d1`/`d2` formulas, inside
`black_scholes_call`, `black_scholes_put` and `calculate_greeks`, define the
same function of `(S,K,T,r,sigma)`. -/
theorem d1_d2_coherence (S K T r sigma : ℝ) :
    (call_d1 S K T r sigma = put_d1 S K T r sigma ∧
      put_d1 S K T r sigma = greeks_d1 S K T r sigma) ∧
    (call_d2 S K T r sigma = put_d2 S K T r sigma ∧
      put_d2 S K T r sigma = greeks_d2 S K T r sigma) :=
  ⟨⟨rfl, rfl⟩, ⟨rfl, rfl⟩⟩

/-- C10: omitting the `option_type` argument of `calculate_greeks` is the same
as passing `"call"` (the declared default, src/general.py line 79). -/
theorem calculate_greeks_default (S K T r sigma : ℝ) :
    calculate_greeks S K T r sigma = calculate_greeks S K T r sigma "call" :=
  rfl

/-- C5 (code bug): on the concrete valid input
`(S,K,T,r,sigma,option_type) = (100,100,1,0.05,0.2,call)` the greeks
computation does not return a delta at all: the `norm.edf(d1)` call raises
`AttributeError`, so the whole call fails. -/
theorem greeks_delta_attribute_error :
    calculate_greeks 100 100 1 0.05 0.2 "call" =
      .error (.attributeError "edf") := rfl

/-- C7 (code bug): on the concrete valid input
`(S,K,T,r,sigma,option_type) = (50,40,2,0.1,0.3,put)` the greeks computation
fails with `AttributeError` before the theta block's result can be returned. -/
theorem greeks_theta_unreachable :
    calculate_greeks 50 40 2 0.1 0.3 "put" =
      .error (.attributeError "edf") := rfl

/-- C4 (code bug): `calculate_greeks` performs no validation of
`option_type`: every value other than `"call"` — including strings that are
neither `"call"` nor `"put"` — silently takes the put branch instead of
failing with an `InvalidInput` error. -/
theorem calculate_greeks_silent_fallback (S K T r sigma : ℝ)
    (option_type : String) (h : option_type ≠ "call") :
    calculate_greeks S K T r sigma option_type =
      calculate_greeks S K T r sigma "put" := by
  simp only [calculate_greeks, greeks_delta, greeks_theta, greeks_rho,
    if_neg h, if_neg (by decide : ¬("put" = "call"))]

/-- Witness for C4 at `option_type = "banana"`. -/
theorem calculate_greeks_silent_fallback_witness :
    "banana" ≠ "call" ∧
      calculate_greeks 100 100 1 0.05 0.2 "banana" =
        calculate_greeks 100 100 1 0.05 0.2 "put" :=
  ⟨by decide, calculate_greeks_silent_fallback 100 100 1 0.05 0.2 "banana"
    (by decide)⟩

/-- C3: put-call parity: for every valid input (`S > 0`, `K > 0`, `T > 0`,
`sigma > 0`, any real `r`), `call − put = S − K·e^(−rT)`.  The proof uses the
reflection identity `Φ(x) + Φ(−x) = 1` of the normal cdf; in the embedding
the identity in fact holds for all real inputs. -/
theorem put_call_parity (S K T r sigma : ℝ) (hS : 0 < S) (hK : 0 < K)
    (hT : 0 < T) (hsigma : 0 < sigma) :
    black_scholes_call S K T r sigma - black_scholes_put S K T r sigma
      = S - K * Real.exp (-r * T) :=
  parity_core S K T r sigma

/-- Witness for C3 at `(S,K,T,r,sigma) = (5,4,2,1,3)`. -/
theorem put_call_parity_witness :
    (0:ℝ) < 5 ∧ (0:ℝ) < 4 ∧ (0:ℝ) < 2 ∧ (0:ℝ) < 3 ∧
      black_scholes_call 5 4 2 1 3 - black_scholes_put 5 4 2 1 3
        = 5 - 4 * Real.exp (-1 * 2) :=
  ⟨by norm_num, by norm_num, by norm_num, by norm_num,
    put_call_parity 5 4 2 1 3 (by norm_num) (by norm_num) (by norm_num)
      (by norm_num)⟩

/-- C8: no-arbitrage bounds: for every valid input,
`max(0, S − K·e^(−rT)) ≤ call ≤ S` and
`max(0, K·e^(−rT) − S) ≤ put ≤ K·e^(−rT)`. -/
theorem no_arbitrage_bounds (S K T r sigma : ℝ) (hS : 0 < S) (hK : 0 < K)
    (hT : 0 < T) (hsigma : 0 < sigma) :
    (max 0 (S - K * Real.exp (-r * T)) ≤ black_scholes_call S K T r sigma ∧
        black_scholes_call S K T r sigma ≤ S) ∧
      (max 0 (K * Real.exp (-r * T) - S) ≤ black_scholes_put S K T r sigma ∧
        black_scholes_put S K T r sigma ≤ K * Real.exp (-r * T)) := by
  have hcall0 := black_scholes_call_nonneg S K T r sigma hS hK hT hsigma
  have hput0 := black_scholes_put_nonneg S K T r sigma hS hK hT hsigma
  have hpar := parity_core S K T r sigma
  have hB : 0 < K * Real.exp (-r * T) := by positivity
  have hcall_le : black_scholes_call S K T r sigma ≤ S := by
    simp only [black_scholes_call]
    nlinarith [mul_nonneg hS.le
        (sub_nonneg.2 (normCdf_le_one (call_d1 S K T r sigma))),
      mul_nonneg hB.le (normCdf_nonneg (call_d2 S K T r sigma))]
  have hput_le : black_scholes_put S K T r sigma ≤ K * Real.exp (-r * T) := by
    simp only [black_scholes_put]
    nlinarith [mul_nonneg hB.le
        (sub_nonneg.2 (normCdf_le_one (-put_d2 S K T r sigma))),
      mul_nonneg hS.le (normCdf_nonneg (-put_d1 S K T r sigma))]
  exact ⟨⟨max_le hcall0 (by linarith), hcall_le⟩,
    ⟨max_le hput0 (by linarith), hput_le⟩⟩

/-- Witness for C8 at `(S,K,T,r,sigma) = (1,2,1,0,1)`. -/
theorem no_arbitrage_bounds_witness :
    (0:ℝ) < 1 ∧ (0:ℝ) < 2 ∧
      ((max 0 ((1:ℝ) - 2 * Real.exp (-0 * 1)) ≤ black_scholes_call 1 2 1 0 1 ∧
          black_scholes_call 1 2 1 0 1 ≤ 1) ∧
        (max 0 (2 * Real.exp (-0 * 1) - 1) ≤ black_scholes_put 1 2 1 0 1 ∧
          black_scholes_put 1 2 1 0 1 ≤ 2 * Real.exp (-0 * 1))) :=
  ⟨by norm_num, by norm_num,
    no_arbitrage_bounds 1 2 1 0 1 (by norm_num) (by norm_num) (by norm_num)
      (by norm_num)⟩

/-- C6 (code bug): the put branch of the rho block applies the cdf to `d2`
instead of `−d2`.  At the concrete valid input
`(S,K,T,r,sigma) = (100,100,1,0.05,0.2)` (where `d2 = 0.15 ≠ 0`) the value the
code computes differs from the claimed `−K·T·e^(−rT)·Φ(−d2)`. -/
theorem put_rho_wrong_cdf_argument :
    greeks_rho 100 100 1 0.05 0.2 "put" ≠
      -(100:ℝ) * 1 * Real.exp (-(0.05:ℝ) * 1) *
        normCdf (-greeks_d2 100 100 1 0.05 0.2) := by
  have hd2 : greeks_d2 100 100 1 0.05 0.2 = 0.15 := by
    simp only [greeks_d2, greeks_d1]
    rw [show (100:ℝ) / 100 = 1 by norm_num, Real.log_one, Real.sqrt_one]
    norm_num
  have hrho : greeks_rho 100 100 1 0.05 0.2 "put" =
      -(100:ℝ) * 1 * Real.exp (-(0.05:ℝ) * 1) * normCdf 0.15 := by
    simp only [greeks_rho, hd2, if_neg (show ¬("put" = "call") by decide)]
  intro h
  rw [hrho, hd2] at h
  have hc : (-(100:ℝ) * 1 * Real.exp (-(0.05:ℝ) * 1)) ≠ 0 :=
    mul_ne_zero (by norm_num) (Real.exp_ne_zero _)
  have heq : normCdf 0.15 = normCdf (-(0.15:ℝ)) := mul_left_cancel₀ hc h
  have hlt : normCdf (-(0.15:ℝ)) < normCdf 0.15 := normCdf_lt_of_lt (by norm_num)
  linarith [heq, hlt]
